import Mathlib

/-!
Shallow embedding of the polyline simplification library (src/lib.rs).

Conventions of the embedding:
* `f64` coordinates are modelled as exact rationals; all inputs of interest
  have finite decimal coordinates, and every comparison performed by the
  library on those inputs is non-borderline, so exact arithmetic agrees with
  the floating point run.
* A Rust panic or divergence is modelled as `none`: `simplify_douglas_peucker`
  computes `self.points.len() - 1` on `usize`, which on an empty polyline
  underflows and makes the loop body panic, so the embedding returns `none`
  for the empty polyline.  The iterative stack loop is given explicit fuel;
  `dpLoop_isSome` below proves the fuel is always sufficient for the
  non-negative squared tolerances that `simplify` passes, so `none` from fuel
  exhaustion never occurs on the paths `simplify` exercises.
* The `bit_vec::BitVec` retention mask is modelled as `List Bool`;
  `BitVec.get i == Some(true)` becomes `getBool keep i`, which is `false` out
  of range, exactly like the Rust comparison.
-/

/-- The 2D point of the library: two coordinates, structural equality. -/
structure Point where
  x : ℚ
  y : ℚ
deriving DecidableEq

/-- Squared distance from `self` to the segment from `p1` to `p2`
(`Point::sq_seg_dist` in src/lib.rs).  The mutable locals `x`, `y` of the
source hold the closest candidate point; the embedding names it `c`. -/
def Point.sq_seg_dist (p p1 p2 : Point) : ℚ :=
  let dx := p2.x - p1.x
  let dy := p2.y - p1.y
  let c : Point :=
    if dx ≠ 0 ∨ dy ≠ 0 then
      let t := ((p.x - p1.x) * dx + (p.y - p1.y) * dy) / (dx * dx + dy * dy)
      if t > 1 then
        Point.mk p2.x p2.y
      else if t > 0 then
        Point.mk (p1.x + dx * t) (p1.y + dy * t)
      else
        Point.mk p1.x p1.y
    else
      Point.mk p1.x p1.y
  let fdx := p.x - c.x
  let fdy := p.y - c.y
  fdx * fdx + fdy * fdy

/-- The polyline: an ordered sequence of points (`Vec<Point>` in the source). -/
structure Polyline where
  points : List Point
deriving DecidableEq

/-- `Polyline::len` of the source. -/
def Polyline.len (P : Polyline) : Nat :=
  P.points.length

/-- `Polyline::simplify_radial_dist` of src/lib.rs: zip the points with their
successors, keep each `pre` whose (mis-transcribed) squared distance to `cur`
exceeds the squared tolerance.  Note the source computes
`dx = pre.x - cur.y`, pairing the x of one point with the y of the other. -/
def Polyline.simplify_radial_dist (P : Polyline) (sq_tolerance : ℚ) : Polyline :=
  Polyline.mk
    ((((P.points.take (P.points.length - 1)).zip (P.points.drop 1)).filter
      (fun pc =>
        let dx := pc.1.x - pc.2.y
        let dy := pc.1.y - pc.2.y
        decide (dx * dx + dy * dy > sq_tolerance))).map Prod.fst)

/-- Lookup in the retention mask: `keep_elem_vec.get(i) == Some(true)` of the
source, `false` when the index is out of range. -/
def getBool : List Bool → Nat → Bool
  | [], _ => false
  | k :: _, 0 => k
  | _ :: rest, n + 1 => getBool rest n

/-- Point lookup by index.  The source uses `self.points.get(i).unwrap()`;
every index the algorithm produces is in range (the stack only ever holds
ranges inside the polyline), so a default point stands in for the
unreachable out-of-range case. -/
def getPt : List Point → Nat → Point
  | [], _ => Point.mk 0 0
  | p :: _, 0 => p
  | _ :: rest, n + 1 => getPt rest n

/-- The interior scan of one stack iteration of
`Polyline::simplify_douglas_peucker`: over `i` in `(start_idx+1)..end_idx`,
among the still-retained indices, track the maximal segment distance and the
index attaining it, starting from `(0, start_idx)`. -/
def dpScan (points : List Point) (keep : List Bool) (start_idx end_idx : Nat) : ℚ × Nat :=
  (List.range' (start_idx + 1) (end_idx - (start_idx + 1))).foldl
    (fun acc i =>
      if getBool keep i then
        let seg_dist := (getPt points i).sq_seg_dist (getPt points start_idx) (getPt points end_idx)
        if seg_dist > acc.1 then (seg_dist, i) else acc
      else acc)
    (0, start_idx)

/-- Clear the mask on the interior indices `a ≤ i < b` (the source loop
`for i in (start_idx + 1)..end_idx` calling `keep_elem_vec.set(i, false)`);
`idx` is the index of the head of the list being walked. -/
def setRangeFalse (a b : Nat) : List Bool → Nat → List Bool
  | [], _ => []
  | k :: rest, idx => (if a ≤ idx && idx < b then false else k) :: setRangeFalse a b rest (idx + 1)

/-- The final `enumerate().filter(...)` of `simplify_douglas_peucker`:
the subsequence of points whose mask bit is set. -/
def keepFilter (keep : List Bool) : List Point → Nat → List Point
  | [], _ => []
  | p :: rest, idx =>
    if getBool keep idx then p :: keepFilter keep rest (idx + 1)
    else keepFilter keep rest (idx + 1)

/-- The stack-driven loop of `simplify_douglas_peucker`.  Each iteration pops
a range, scans its interior, and either pushes the two sub-ranges around the
farthest point (`dmax > sq_tolerance`) or clears the interior of the mask.
The Rust loop runs until the stack is empty; the embedding carries fuel, and
`dpLoop_isSome` shows the fuel passed by `simplify_douglas_peucker` suffices
whenever `0 ≤ sq_tolerance`. -/
def dpLoop (points : List Point) (sq_tolerance : ℚ) :
    Nat → List (Nat × Nat) → List Bool → Option (List Bool)
  | 0, _, _ => none
  | _ + 1, [], keep => some keep
  | fuel + 1, (start_idx, end_idx) :: stack, keep =>
    let sc := dpScan points keep start_idx end_idx
    if sc.1 > sq_tolerance then
      dpLoop points sq_tolerance fuel ((sc.2, end_idx) :: (start_idx, sc.2) :: stack) keep
    else
      dpLoop points sq_tolerance fuel stack (setRangeFalse (start_idx + 1) end_idx keep 0)

/-- `Polyline::simplify_douglas_peucker` of src/lib.rs.  On the empty
polyline the source computes `self.points.len() - 1` on `usize`, underflows,
and the loop body panics (debug: overflow check; release: the huge range
makes `BitVec::set` hit an out-of-range index); the embedding returns
`none` there. -/
def Polyline.simplify_douglas_peucker (P : Polyline) (sq_tolerance : ℚ) : Option Polyline :=
  if P.points.length = 0 then none
  else
    match dpLoop P.points sq_tolerance (2 * P.points.length + 2)
        [(0, P.points.length - 1)] (List.replicate P.points.length true) with
    | none => none
    | some keep => some (Polyline.mk (keepFilter keep P.points 0))

/-- The near-duplicate collapse loop at the end of `Polyline::simplify`:
walk the remaining points, keeping a point only when its squared distance to
the last kept point `q` exceeds the fixed constant 0.000009. -/
def collapseLoop (q : Point) : List Point → List Point
  | [] => []
  | p :: rest =>
    let dx := p.x - q.x
    let dy := p.y - q.y
    if dx * dx + dy * dy > 0.000009 then p :: collapseLoop p rest
    else collapseLoop q rest

/-- The whole collapse pass of `Polyline::simplify`: the first point is
always kept (`it.next().unwrap()` then `keep.push`), the rest go through
`collapseLoop`.  `simplify` only reaches this with more than two points, so
the empty case is unreachable from it. -/
def collapse : List Point → List Point
  | [] => []
  | q :: rest => q :: collapseLoop q rest

/-- `Polyline::simplify` of src/lib.rs.  Faithful to the source, including
its quirk: the result `_poly` of the radial-prefilter plus Douglas-Peucker
stage is bound and then never used — the final collapse loop iterates over
`self.points`, the original input.  The match still forces the stage, so a
panic inside it (modelled `none`) is propagated. -/
def Polyline.simplify (P : Polyline) (tolerance : ℚ) (highest_quality : Bool) : Option Polyline :=
  if P.points.length ≤ 2 then some P
  else
    let sq_tolerance := tolerance ^ 2
    let poly0 := if highest_quality then P else P.simplify_radial_dist sq_tolerance
    match poly0.simplify_douglas_peucker sq_tolerance with
    | none => none
    | some _poly => some (Polyline.mk (collapse P.points))

/-- The 100-point input polyline of the golden regression test
`tests::it_works` in src/lib.rs. -/
def polyOriginal : Polyline := Polyline.mk [
  Point.mk 224.55 250.15, Point.mk 226.91 244.19, Point.mk 233.31 241.45, Point.mk 234.98 236.06,
  Point.mk 244.21 232.76, Point.mk 262.59 215.31, Point.mk 267.76 213.81, Point.mk 273.57 201.84,
  Point.mk 273.12 192.16, Point.mk 277.62 189.03, Point.mk 280.36 181.41, Point.mk 286.51 177.74,
  Point.mk 292.41 159.37, Point.mk 296.91 155.64, Point.mk 314.95 151.37, Point.mk 319.75 145.16,
  Point.mk 330.33 137.57, Point.mk 341.48 139.96, Point.mk 369.98 137.89, Point.mk 387.39 142.51,
  Point.mk 391.28 139.39, Point.mk 409.52 141.14, Point.mk 414.82 139.75, Point.mk 427.72 127.30,
  Point.mk 439.60 119.74, Point.mk 474.93 107.87, Point.mk 486.51 106.75, Point.mk 489.20 109.45,
  Point.mk 493.79 108.63, Point.mk 504.74 119.66, Point.mk 512.96 122.35, Point.mk 518.63 120.89,
  Point.mk 524.09 126.88, Point.mk 529.57 127.86, Point.mk 534.21 140.93, Point.mk 539.27 147.24,
  Point.mk 567.69 148.91, Point.mk 575.25 157.26, Point.mk 580.62 158.15, Point.mk 601.53 156.85,
  Point.mk 617.74 159.86, Point.mk 622.00 167.04, Point.mk 629.55 194.60, Point.mk 638.90 195.61,
  Point.mk 641.26 200.81, Point.mk 651.77 204.56, Point.mk 671.55 222.55, Point.mk 683.68 217.45,
  Point.mk 695.25 219.15, Point.mk 700.64 217.98, Point.mk 703.12 214.36, Point.mk 712.26 215.87,
  Point.mk 721.49 212.81, Point.mk 727.81 213.36, Point.mk 729.98 208.73, Point.mk 735.32 208.20,
  Point.mk 739.94 204.77, Point.mk 769.98 208.42, Point.mk 779.60 216.87, Point.mk 784.20 218.16,
  Point.mk 800.24 214.62, Point.mk 810.53 219.73, Point.mk 817.19 226.82, Point.mk 820.77 236.17,
  Point.mk 827.23 236.16, Point.mk 829.89 239.89, Point.mk 851.00 248.94, Point.mk 859.88 255.49,
  Point.mk 865.21 268.53, Point.mk 857.95 280.30, Point.mk 865.48 291.45, Point.mk 866.81 298.66,
  Point.mk 864.68 302.71, Point.mk 867.79 306.17, Point.mk 859.87 311.37, Point.mk 860.08 314.35,
  Point.mk 858.29 314.94, Point.mk 858.10 327.60, Point.mk 854.54 335.40, Point.mk 860.92 343.00,
  Point.mk 856.43 350.15, Point.mk 851.42 352.96, Point.mk 849.84 359.59, Point.mk 854.56 365.53,
  Point.mk 849.74 370.38, Point.mk 844.09 371.89, Point.mk 844.75 380.44, Point.mk 841.52 383.67,
  Point.mk 839.57 390.40, Point.mk 845.59 399.05, Point.mk 848.40 407.55, Point.mk 843.71 411.30,
  Point.mk 844.09 419.88, Point.mk 839.51 432.76, Point.mk 841.33 441.04, Point.mk 847.62 449.22,
  Point.mk 847.16 458.44, Point.mk 851.38 462.79, Point.mk 853.97 471.15, Point.mk 866.36 480.77]

/-- The 33-point expected output of the golden regression test
`tests::it_works` in src/lib.rs. -/
def polyExpected : Polyline := Polyline.mk [
  Point.mk 224.55 250.15, Point.mk 267.76 213.81, Point.mk 296.91 155.64, Point.mk 330.33 137.57,
  Point.mk 409.52 141.14, Point.mk 439.60 119.74, Point.mk 486.51 106.75, Point.mk 529.57 127.86,
  Point.mk 539.27 147.24, Point.mk 617.74 159.86, Point.mk 629.55 194.60, Point.mk 671.55 222.55,
  Point.mk 727.81 213.36, Point.mk 739.94 204.77, Point.mk 769.98 208.42, Point.mk 779.60 216.87,
  Point.mk 800.24 214.62, Point.mk 820.77 236.17, Point.mk 859.88 255.49, Point.mk 865.21 268.53,
  Point.mk 857.95 280.30, Point.mk 867.79 306.17, Point.mk 859.87 311.37, Point.mk 854.54 335.40,
  Point.mk 860.92 343.00, Point.mk 849.84 359.59, Point.mk 854.56 365.53, Point.mk 844.09 371.89,
  Point.mk 839.57 390.40, Point.mk 848.40 407.55, Point.mk 839.51 432.76, Point.mk 853.97 471.15,
  Point.mk 866.36 480.77]

/-- Squared point-to-point distance, the specification-side metric. -/
def sqDist (p q : Point) : ℚ :=
  (p.x - q.x) ^ 2 + (p.y - q.y) ^ 2

/-- The projection parameter of the segment-distance specification:
dot(p-a, b-a) divided by the squared length of b-a. -/
def segParam (p a b : Point) : ℚ :=
  ((p.x - a.x) * (b.x - a.x) + (p.y - a.y) * (b.y - a.y)) /
    ((b.x - a.x) ^ 2 + (b.y - a.y) ^ 2)

/-- The per-pair keep decision of the radial pre-filter, stated over indices:
index `i < len - 1` contributes `points[i]` exactly when the quantity the
code computes for the pair `(points[i], points[i+1])` exceeds the squared
tolerance. -/
def radialKeepSpec (points : List Point) (sq_tolerance : ℚ) : List Point :=
  (List.range (points.length - 1)).filterMap fun i =>
    match points.get? i, points.get? (i + 1) with
    | some prev, some cur =>
        if (prev.x - cur.y) ^ 2 + (prev.y - cur.y) ^ 2 > sq_tolerance then some prev else none
    | _, _ => none

/-- Verification-side predicate: every pair of consecutive points of the
list is farther apart than the collapse threshold (squared distance above
0.000009).  On such lists the collapse pass is the identity. -/
def allFar : List Point → Bool
  | [] => true
  | [_] => true
  | q :: p :: rest =>
    decide ((p.x - q.x) * (p.x - q.x) + (p.y - q.y) * (p.y - q.y) > 0.000009) &&
      allFar (p :: rest)

/-- Potential of one stack entry: the bound on the number of loop iterations
the entry can still cause. -/
def rangePhi (se : Nat × Nat) : Nat :=
  if se.1 < se.2 then 2 * (se.2 - se.1) - 1 else 1

/-- Potential of the whole work stack. -/
def stackPhi (stack : List (Nat × Nat)) : Nat :=
  (stack.map rangePhi).sum

/-- Invariant preservation along a left fold. -/
theorem foldl_preserve {α β : Type _} (f : β → α → β) (Inv : β → Prop) :
    ∀ (l : List α) (b : β), Inv b → (∀ b a, a ∈ l → Inv b → Inv (f b a)) →
      Inv (l.foldl f b) := by
  intro l
  induction l with
  | nil => intro b hb _; exact hb
  | cons a t ih =>
    intro b hb hstep
    exact ih (f b a) (hstep b a (List.mem_cons_self a t) hb)
      (fun b' a' ha' hb' => hstep b' a' (List.mem_cons_of_mem a ha') hb')

/-- The scan either never updates its accumulator (distance 0, index
`start_idx`) or ends on a strictly interior index. -/
theorem dpScan_bounds (points : List Point) (keep : List Bool) (s e : Nat) :
    (dpScan points keep s e).1 = 0 ∧ (dpScan points keep s e).2 = s ∨
      s + 1 ≤ (dpScan points keep s e).2 ∧ (dpScan points keep s e).2 < e := by
  unfold dpScan
  apply foldl_preserve _
    (fun acc : ℚ × Nat => acc.1 = 0 ∧ acc.2 = s ∨ s + 1 ≤ acc.2 ∧ acc.2 < e)
  · exact Or.inl ⟨rfl, rfl⟩
  · intro b a ha hb
    rcases List.mem_range'.1 ha with ⟨i, hi, rfl⟩
    rw [show s + 1 + 1 * i = s + 1 + i by omega]
    by_cases hk : getBool keep (s + 1 + i) = true
    · rw [if_pos hk]
      by_cases hseg :
          (getPt points (s + 1 + i)).sq_seg_dist (getPt points s) (getPt points e) > b.1
      · have hred :
            (let seg_dist :=
              (getPt points (s + 1 + i)).sq_seg_dist (getPt points s) (getPt points e);
             if seg_dist > b.1 then (seg_dist, s + 1 + i) else b) =
            ((getPt points (s + 1 + i)).sq_seg_dist (getPt points s) (getPt points e),
              s + 1 + i) := by
          simp [hseg]
        rw [hred]
        right
        constructor <;> omega
      · have hred :
            (let seg_dist :=
              (getPt points (s + 1 + i)).sq_seg_dist (getPt points s) (getPt points e);
             if seg_dist > b.1 then (seg_dist, s + 1 + i) else b) = b := by
          simp [hseg]
        rw [hred]
        exact hb
    · rw [if_neg hk]
      exact hb

theorem stackPhi_cons (se : Nat × Nat) (stack : List (Nat × Nat)) :
    stackPhi (se :: stack) = rangePhi se + stackPhi stack := by
  simp [stackPhi]

theorem one_le_rangePhi (se : Nat × Nat) : 1 ≤ rangePhi se := by
  unfold rangePhi
  split <;> omega

/-- With a non-negative squared tolerance the loop always terminates within
its potential: every iteration strictly decreases `stackPhi`. -/
theorem dpLoop_isSome (points : List Point) (sq_tolerance : ℚ)
    (h0 : 0 ≤ sq_tolerance) :
    ∀ (fuel : Nat) (stack : List (Nat × Nat)) (keep : List Bool),
      stackPhi stack < fuel → (dpLoop points sq_tolerance fuel stack keep).isSome = true := by
  intro fuel
  induction fuel with
  | zero => intro stack keep h; exact absurd h (Nat.not_lt_zero _)
  | succ n ih =>
    intro stack keep h
    match stack with
    | [] => simp [dpLoop]
    | (s, e) :: rest =>
      rw [dpLoop]
      rw [stackPhi_cons] at h
      by_cases hc : (dpScan points keep s e).1 > sq_tolerance
      · rw [if_pos hc]
        apply ih
        have hpos : 0 < (dpScan points keep s e).1 := lt_of_le_of_lt h0 hc
        rcases dpScan_bounds points keep s e with ⟨h1, _⟩ | ⟨h1, h2⟩
        · rw [h1] at hpos
          exact absurd hpos (lt_irrefl 0)
        · rw [stackPhi_cons, stackPhi_cons]
          have hse : s < e := by omega
          have e1 : rangePhi (s, e) = 2 * (e - s) - 1 := if_pos hse
          have e2 : rangePhi ((dpScan points keep s e).2, e) =
              2 * (e - (dpScan points keep s e).2) - 1 := if_pos h2
          have e3 : rangePhi (s, (dpScan points keep s e).2) =
              2 * ((dpScan points keep s e).2 - s) - 1 := if_pos (by omega)
          omega
      · rw [if_neg hc]
        apply ih
        have := one_le_rangePhi (s, e)
        omega

/-- `simplify_douglas_peucker` returns a value on every non-empty polyline
when the squared tolerance is non-negative (as it always is when called from
`simplify`, which squares the tolerance). -/
theorem simplify_douglas_peucker_isSome (P : Polyline) (sq_tolerance : ℚ)
    (h0 : 0 ≤ sq_tolerance) (hne : P.points ≠ []) :
    ∃ Q, P.simplify_douglas_peucker sq_tolerance = some Q := by
  unfold Polyline.simplify_douglas_peucker
  rw [if_neg (by simpa using hne)]
  have h := dpLoop_isSome P.points sq_tolerance h0 (2 * P.points.length + 2)
      [(0, P.points.length - 1)] (List.replicate P.points.length true) ?bound
  case bound =>
    rw [stackPhi_cons]
    have h1 := one_le_rangePhi (0, P.points.length - 1)
    have h2 : rangePhi (0, P.points.length - 1) ≤ 2 * P.points.length + 1 := by
      unfold rangePhi
      split <;> omega
    have h3 : stackPhi ([] : List (Nat × Nat)) = 0 := rfl
    omega
  cases hk : dpLoop P.points sq_tolerance (2 * P.points.length + 2)
      [(0, P.points.length - 1)] (List.replicate P.points.length true) with
  | none => rw [hk] at h; simp at h
  | some keep => exact ⟨_, rfl⟩

/-- On a polyline with more than two points, whenever the pre-filter stage
leaves at least one point, `simplify` returns, and the value it returns is
the collapse of the original input points — the Douglas-Peucker result is
bound to `_poly` and dropped by the source. -/
theorem simplify_eq_some (P : Polyline) (tolerance : ℚ) (q : Bool)
    (hlen : 2 < P.points.length)
    (hpre : (if q then P else P.simplify_radial_dist (tolerance ^ 2)).points ≠ []) :
    P.simplify tolerance q = some (Polyline.mk (collapse P.points)) := by
  obtain ⟨Q, hQ⟩ :=
    simplify_douglas_peucker_isSome _ (tolerance ^ 2) (sq_nonneg tolerance) hpre
  simp only [Polyline.simplify]
  rw [if_neg (by omega), hQ]

/-- Whatever `simplify` returns on a polyline with more than two points is
the collapse of the original input points. -/
theorem simplify_some_eq (P : Polyline) (tolerance : ℚ) (q : Bool) (r : Polyline)
    (hlen : 2 < P.points.length) (h : P.simplify tolerance q = some r) :
    r = Polyline.mk (collapse P.points) := by
  simp only [Polyline.simplify] at h
  rw [if_neg (by omega)] at h
  cases hk : (if q = true then P else P.simplify_radial_dist (tolerance ^ 2)).simplify_douglas_peucker
      (tolerance ^ 2) with
  | none => rw [hk] at h; exact absurd h (by simp)
  | some Q =>
    rw [hk] at h
    exact (Option.some_inj.1 h).symm

theorem collapseLoop_sublist (q : Point) (l : List Point) :
    (collapseLoop q l).Sublist l := by
  induction l generalizing q with
  | nil => simp [collapseLoop]
  | cons p rest ih =>
    rw [collapseLoop]
    split
    · exact (ih p).cons₂ p
    · exact (ih q).cons p

theorem collapse_sublist (l : List Point) : (collapse l).Sublist l := by
  cases l with
  | nil => simp [collapse]
  | cons q rest => exact (collapseLoop_sublist q rest).cons₂ q

theorem collapse_head (p : Point) (rest : List Point) :
    collapse (p :: rest) = p :: collapseLoop p rest := rfl

theorem radialKeepSpec_eq (l : List Point) (t : ℚ) :
    ((Polyline.mk l).simplify_radial_dist t).points = radialKeepSpec l t := by
  induction l with
  | nil => rfl
  | cons p rest ih =>
    cases rest with
    | nil => rfl
    | cons qq rest2 =>
      have hcond : ((p.x - qq.y) ^ 2 + (p.y - qq.y) ^ 2 > t) =
          ((p.x - qq.y) * (p.x - qq.y) + (p.y - qq.y) * (p.y - qq.y) > t) := by
        rw [pow_two, pow_two]
      have hL : ((Polyline.mk (p :: qq :: rest2)).simplify_radial_dist t).points =
          (if (p.x - qq.y) * (p.x - qq.y) + (p.y - qq.y) * (p.y - qq.y) > t
           then p :: ((Polyline.mk (qq :: rest2)).simplify_radial_dist t).points
           else ((Polyline.mk (qq :: rest2)).simplify_radial_dist t).points) := by
        simp only [Polyline.simplify_radial_dist, List.length_cons, Nat.add_sub_cancel,
          List.take_succ_cons, List.drop_succ_cons, List.drop_zero, List.zip_cons_cons,
          List.filter_cons]
        by_cases hc : (p.x - qq.y) * (p.x - qq.y) + (p.y - qq.y) * (p.y - qq.y) > t
        · simp [hc]
        · simp [hc]
      have hR : radialKeepSpec (p :: qq :: rest2) t =
          (if (p.x - qq.y) * (p.x - qq.y) + (p.y - qq.y) * (p.y - qq.y) > t
           then p :: radialKeepSpec (qq :: rest2) t
           else radialKeepSpec (qq :: rest2) t) := by
        rw [radialKeepSpec]
        rw [show (p :: qq :: rest2).length - 1 = rest2.length + 1 by simp]
        rw [List.range_succ_eq_map, List.filterMap_cons, List.filterMap_map]
        by_cases hc : (p.x - qq.y) * (p.x - qq.y) + (p.y - qq.y) * (p.y - qq.y) > t
        · rw [if_pos hc]
          simp only [List.get?_cons_zero, List.get?_cons_succ]
          rw [if_pos (hcond ▸ hc)]
          rw [radialKeepSpec]
          rw [show (qq :: rest2).length - 1 = rest2.length by simp]
          rfl
        · rw [if_neg hc]
          simp only [List.get?_cons_zero, List.get?_cons_succ]
          rw [if_neg (fun hx => hc (hcond ▸ hx))]
          rw [radialKeepSpec]
          rw [show (qq :: rest2).length - 1 = rest2.length by simp]
          rfl
      rw [hL, hR, ih]

theorem point_sub_ne (a b : Point) (h : a ≠ b) : b.x - a.x ≠ 0 ∨ b.y - a.y ≠ 0 := by
  by_contra hcon
  push_neg at hcon
  obtain ⟨h1, h2⟩ := hcon
  apply h
  cases a
  cases b
  simp only [Point.mk.injEq]
  simp only [Point.mk.injEq] at h1 h2 ⊢
  constructor <;> linarith [sub_eq_zero.1 h1, sub_eq_zero.1 h2]

theorem segParam_eq_code (p a b : Point) :
    segParam p a b = ((p.x - a.x) * (b.x - a.x) + (p.y - a.y) * (b.y - a.y)) /
      ((b.x - a.x) * (b.x - a.x) + (b.y - a.y) * (b.y - a.y)) := by
  unfold segParam
  rw [pow_two, pow_two]

/-- Claim C10: for all points p, a, b, the squared point-to-segment distance
is always non-negative; when a = b it equals the squared point-to-point
distance from p to a (no division by zero occurs); otherwise, with
t = dot(p-a, b-a) / |b-a|^2, it equals the squared distance from p to b when
t > 1, to the projection a + t*(b-a) when 0 < t ≤ 1, and to a when t ≤ 0. -/
theorem sq_seg_dist_cases (p a b : Point) :
    0 ≤ p.sq_seg_dist a b ∧
    (a = b → p.sq_seg_dist a b = sqDist p a) ∧
    (a ≠ b →
      (1 < segParam p a b → p.sq_seg_dist a b = sqDist p b) ∧
      (0 < segParam p a b → segParam p a b ≤ 1 →
        p.sq_seg_dist a b =
          sqDist p (Point.mk (a.x + segParam p a b * (b.x - a.x))
                             (a.y + segParam p a b * (b.y - a.y)))) ∧
      (segParam p a b ≤ 0 → p.sq_seg_dist a b = sqDist p a)) := by
  have key : ∀ c : Point,
      0 ≤ (p.x - c.x) * (p.x - c.x) + (p.y - c.y) * (p.y - c.y) :=
    fun c => add_nonneg (mul_self_nonneg _) (mul_self_nonneg _)
  refine ⟨?_, ?_, ?_⟩
  · simp only [Point.sq_seg_dist]
    exact key _
  · intro hab
    subst hab
    simp only [Point.sq_seg_dist]
    rw [if_neg (by simp)]
    unfold sqDist
    rw [pow_two, pow_two]
  · intro hab
    have hor := point_sub_ne a b hab
    have ht := segParam_eq_code p a b
    refine ⟨?_, ?_, ?_⟩
    · intro h1
      rw [ht] at h1
      simp only [Point.sq_seg_dist]
      rw [if_pos hor, if_pos h1]
      unfold sqDist
      rw [pow_two, pow_two]
    · intro h0 hle1
      rw [ht] at h0 hle1
      simp only [Point.sq_seg_dist]
      rw [if_pos hor, if_neg (not_lt.2 hle1), if_pos h0]
      unfold sqDist
      rw [ht]
      ring
    · intro hle0
      rw [ht] at hle0
      simp only [Point.sq_seg_dist]
      rw [if_pos hor, if_neg (not_lt.2 (le_trans hle0 zero_le_one)), if_neg (not_lt.2 hle0)]
      unfold sqDist
      rw [pow_two, pow_two]

/-- Claim C7: for every polyline P with at most 2 points, simplify(P, t, q)
equals P (points unchanged) for every tolerance t and both quality-flag
values q. -/
theorem simplify_short_polyline_id (P : Polyline) (tolerance : ℚ) (q : Bool)
    (hlen : P.len ≤ 2) :
    P.simplify tolerance q = some P := by
  simp only [Polyline.simplify]
  rw [if_pos (show P.points.length ≤ 2 from hlen)]

theorem simplify_short_polyline_id_witness :
    (Polyline.mk [Point.mk 0 0, Point.mk 1 8.9]).simplify 5 true =
      some (Polyline.mk [Point.mk 0 0, Point.mk 1 8.9]) :=
  simplify_short_polyline_id (Polyline.mk [Point.mk 0 0, Point.mk 1 8.9]) 5 true (by decide)

/-- Claim C2: for every polyline with more than 2 points, whenever
simplify(P, t, q) returns a value, that value is the near-duplicate collapse
(threshold 0.000009 on the squared distance) applied directly to the
original input points; in particular the value does not depend on the
tolerance or on the quality flag, and the Douglas-Peucker output does not
influence it. -/
theorem simplify_eq_collapse_of_some (P : Polyline) (t1 t2 : ℚ) (q1 q2 : Bool)
    (r1 r2 : Polyline) (hlen : 2 < P.points.length)
    (h1 : P.simplify t1 q1 = some r1) (h2 : P.simplify t2 q2 = some r2) :
    r1.points = collapse P.points ∧ r1 = r2 := by
  have e1 := simplify_some_eq P t1 q1 r1 hlen h1
  have e2 := simplify_some_eq P t2 q2 r2 hlen h2
  rw [e1, e2]
  exact ⟨rfl, rfl⟩

theorem simplify_eq_collapse_of_some_witness :
    (Polyline.mk [Point.mk 0 0, Point.mk 1 0, Point.mk 2 5]).points =
      collapse (Polyline.mk [Point.mk 0 0, Point.mk 1 0, Point.mk 2 5]).points := by
  have hs : (Polyline.mk [Point.mk 0 0, Point.mk 1 0, Point.mk 2 5]).simplify 1 true =
      some (Polyline.mk [Point.mk 0 0, Point.mk 1 0, Point.mk 2 5]) := by
    with_unfolding_all decide
  exact (simplify_eq_collapse_of_some
    (Polyline.mk [Point.mk 0 0, Point.mk 1 0, Point.mk 2 5]) 1 1 true true _ _
    (by decide) hs hs).1

/-- Claim C8: for every polyline P, tolerance t and quality flag q, the point
sequence of simplify(P, t, q), when it returns, is a subsequence of the point
sequence of P in the same relative order, and its length never exceeds the
length of P. -/
theorem simplify_result_sublist (P : Polyline) (tolerance : ℚ) (q : Bool) (r : Polyline)
    (h : P.simplify tolerance q = some r) :
    r.points.Sublist P.points ∧ r.len ≤ P.len := by
  by_cases hlen : P.points.length ≤ 2
  · have hid : P.simplify tolerance q = some P := by
      simp only [Polyline.simplify]
      rw [if_pos hlen]
    rw [hid] at h
    rw [← Option.some_inj.1 h]
    exact ⟨List.Sublist.refl _, le_refl _⟩
  · push_neg at hlen
    rw [simplify_some_eq P tolerance q r (by omega) h]
    exact ⟨collapse_sublist _, (collapse_sublist _).length_le⟩

theorem simplify_result_sublist_witness :
    (Polyline.mk [Point.mk 0 0, Point.mk 1 0, Point.mk 2 5]).points.Sublist
      (Polyline.mk [Point.mk 0 0, Point.mk 1 0, Point.mk 2 5]).points ∧
    (Polyline.mk [Point.mk 0 0, Point.mk 1 0, Point.mk 2 5]).len ≤
      (Polyline.mk [Point.mk 0 0, Point.mk 1 0, Point.mk 2 5]).len := by
  have hs : (Polyline.mk [Point.mk 0 0, Point.mk 1 0, Point.mk 2 5]).simplify 1 true =
      some (Polyline.mk [Point.mk 0 0, Point.mk 1 0, Point.mk 2 5]) := by
    with_unfolding_all decide
  exact simplify_result_sublist
    (Polyline.mk [Point.mk 0 0, Point.mk 1 0, Point.mk 2 5]) 1 true _ hs

/-- Claim C9: for every polyline P, quality flag q and tolerances t1 ≤ t2,
whenever both simplifications return, the result at t1 has at least as many
points as the result at t2. -/
theorem simplify_length_antitone (P : Polyline) (q : Bool) (t1 t2 : ℚ) (r1 r2 : Polyline)
    (hts : t1 ≤ t2) (h1 : P.simplify t1 q = some r1) (h2 : P.simplify t2 q = some r2) :
    r2.len ≤ r1.len := by
  by_cases hlen : P.points.length ≤ 2
  · have e : ∀ t r, P.simplify t q = some r → r = P := by
      intro t r h
      simp only [Polyline.simplify] at h
      rw [if_pos hlen] at h
      exact (Option.some_inj.1 h).symm
    rw [e t1 r1 h1, e t2 r2 h2]
  · push_neg at hlen
    rw [simplify_some_eq P t1 q r1 (by omega) h1, simplify_some_eq P t2 q r2 (by omega) h2]

theorem simplify_length_antitone_witness :
    (Polyline.mk [Point.mk 0 0, Point.mk 1 0, Point.mk 2 5]).len ≤
      (Polyline.mk [Point.mk 0 0, Point.mk 1 0, Point.mk 2 5]).len := by
  have hs : ∀ t : ℚ, (Polyline.mk [Point.mk 0 0, Point.mk 1 0, Point.mk 2 5]).simplify t true =
      some (Polyline.mk [Point.mk 0 0, Point.mk 1 0, Point.mk 2 5]) := by
    intro t
    have h3 : 2 < (Polyline.mk [Point.mk 0 0, Point.mk 1 0, Point.mk 2 5]).points.length := by
      decide
    have hcol : collapse (Polyline.mk [Point.mk 0 0, Point.mk 1 0, Point.mk 2 5]).points =
        (Polyline.mk [Point.mk 0 0, Point.mk 1 0, Point.mk 2 5]).points := by
      with_unfolding_all decide
    have := simplify_eq_some (Polyline.mk [Point.mk 0 0, Point.mk 1 0, Point.mk 2 5]) t true
      h3 (by simp)
    rw [this, hcol]
  exact simplify_length_antitone
    (Polyline.mk [Point.mk 0 0, Point.mk 1 0, Point.mk 2 5]) true 1 2 _ _
    (by norm_num) (hs 1) (hs 2)

/-- Claim C3 (as observed on the code): on the all-identical diagonal input
[(0,0),(0,0),(0,0)] with tolerance 0 and highQuality = false the radial
pre-filter empties the point list, `simplify_douglas_peucker` then computes
`self.points.len() - 1` on an empty vector, underflows, and the call panics
instead of returning a value — modelled here as `none`. -/
theorem simplify_panics_on_diagonal_duplicates :
    (Polyline.mk [Point.mk 0 0, Point.mk 0 0, Point.mk 0 0]).simplify 0 false = none := by
  with_unfolding_all decide

/-- Counterexample to claim C4: on [(0,0),(10,0),(10,0.001)] with tolerance 5
and highQuality = true, simplify returns [(0,0),(10,0)]: the collapse pass
drops the last input point (its squared distance to the previous kept point
is 0.000001 ≤ 0.000009), so the last point of the result differs from the
last point of the input. -/
theorem simplify_last_point_dropped :
    (Polyline.mk [Point.mk 0 0, Point.mk 10 0, Point.mk 10 0.001]).simplify 5 true =
      some (Polyline.mk [Point.mk 0 0, Point.mk 10 0]) ∧
    (Polyline.mk [Point.mk 0 0, Point.mk 10 0]).points.getLast? ≠
      (Polyline.mk [Point.mk 0 0, Point.mk 10 0, Point.mk 10 0.001]).points.getLast? := by
  constructor
  · with_unfolding_all decide
  · with_unfolding_all decide

/-- Claim C4 (amended): for every polyline P with more than 2 points, every
tolerance t and both quality flags q, whenever simplify(P, t, q) returns a
value its first point equals the first point of P; the last point of the
result can differ from the last point of P when the collapse pass drops a
near-duplicate final point. -/
theorem simplify_preserves_head (P : Polyline) (tolerance : ℚ) (q : Bool) (r : Polyline)
    (hlen : 2 < P.points.length) (h : P.simplify tolerance q = some r) :
    r.points.head? = P.points.head? := by
  rw [simplify_some_eq P tolerance q r hlen h]
  cases hp : P.points with
  | nil => rw [hp] at hlen; simp at hlen
  | cons p rest =>
    rw [collapse_head]
    rfl

theorem simplify_preserves_head_witness :
    (Polyline.mk [Point.mk 0 0, Point.mk 10 0]).points.head? =
      (Polyline.mk [Point.mk 0 0, Point.mk 10 0, Point.mk 10 0.001]).points.head? := by
  have hs : (Polyline.mk [Point.mk 0 0, Point.mk 10 0, Point.mk 10 0.001]).simplify 5 true =
      some (Polyline.mk [Point.mk 0 0, Point.mk 10 0]) := by
    with_unfolding_all decide
  exact simplify_preserves_head
    (Polyline.mk [Point.mk 0 0, Point.mk 10 0, Point.mk 10 0.001]) 5 true _ (by decide) hs

/-- Claim C5 (as observed on the code): on the colinear input
[(0,0),(1,1),(2,2)] with tolerance 0.1 and either quality flag, simplify
returns all three points — the collapse pass runs over the original input,
discarding the Douglas-Peucker reduction that the specification (and the
golden test of the repository) expects to leave [(0,0),(2,2)]. -/
theorem simplify_colinear_returns_all_points :
    ((Polyline.mk [Point.mk 0 0, Point.mk 1 1, Point.mk 2 2]).simplify 0.1 true =
      some (Polyline.mk [Point.mk 0 0, Point.mk 1 1, Point.mk 2 2])) ∧
    ((Polyline.mk [Point.mk 0 0, Point.mk 1 1, Point.mk 2 2]).simplify 0.1 false =
      some (Polyline.mk [Point.mk 0 0, Point.mk 1 1, Point.mk 2 2])) ∧
    Polyline.mk [Point.mk 0 0, Point.mk 1 1, Point.mk 2 2] ≠
      Polyline.mk [Point.mk 0 0, Point.mk 2 2] := by
  refine ⟨?_, ?_, ?_⟩ <;> with_unfolding_all decide

/-- Counterexample to claim C6: for the pair previous = (0,0),
current = (5,0) and squared tolerance 4 the squared Euclidean distance is
25 > 4, so the claim predicts previous is kept, yet the filter drops it: the
code computes dx from previous.x and current.y. -/
theorem radial_dist_mismatched_axis :
    Point.mk 0 0 ∉ ((Polyline.mk [Point.mk 0 0, Point.mk 5 0]).simplify_radial_dist 4).points ∧
    ((0 : ℚ) - 5) ^ 2 + ((0 : ℚ) - 0) ^ 2 > 4 := by
  constructor
  · with_unfolding_all decide
  · with_unfolding_all decide

/-- Claim C6 (amended): in the radial pre-filter, each point previous of a
consecutive pair (previous, current) is kept exactly when the quantity the
code computes — (previous.x - current.y)^2 + (previous.y - current.y)^2,
with the x of one point paired against the y of the other — exceeds the
squared tolerance. -/
theorem radial_dist_keep_characterization (P : Polyline) (sq_tolerance : ℚ) :
    (P.simplify_radial_dist sq_tolerance).points = radialKeepSpec P.points sq_tolerance := by
  cases P
  exact radialKeepSpec_eq _ sq_tolerance

theorem sq_seg_dist_cases_witness :
    Point.sq_seg_dist (Point.mk 3 4) (Point.mk 0 0) (Point.mk 0 0) =
      sqDist (Point.mk 3 4) (Point.mk 0 0) :=
  (sq_seg_dist_cases (Point.mk 3 4) (Point.mk 0 0) (Point.mk 0 0)).2.1 rfl

theorem collapseLoop_of_allFar :
    ∀ (l : List Point) (q : Point), allFar (q :: l) = true → collapseLoop q l = l := by
  intro l
  induction l with
  | nil => intro q _; rfl
  | cons p rest ih =>
    intro q h
    have h2 : ((p.x - q.x) * (p.x - q.x) + (p.y - q.y) * (p.y - q.y) > 0.000009) ∧
        allFar (p :: rest) = true := by
      simpa [allFar] using h
    simp only [collapseLoop]
    rw [if_pos h2.1, ih p h2.2]

theorem collapse_of_allFar (l : List Point) (h : allFar l = true) : collapse l = l := by
  cases l with
  | nil => rfl
  | cons q rest => rw [collapse_head, collapseLoop_of_allFar rest q h]

theorem radial_dist_cons (p q : Point) (rest : List Point) (t : ℚ)
    (hc : (p.x - q.y) * (p.x - q.y) + (p.y - q.y) * (p.y - q.y) > t) :
    ((Polyline.mk (p :: q :: rest)).simplify_radial_dist t).points =
      p :: ((Polyline.mk (q :: rest)).simplify_radial_dist t).points := by
  simp only [Polyline.simplify_radial_dist, List.length_cons, Nat.add_sub_cancel,
    List.take_succ_cons, List.drop_succ_cons, List.drop_zero, List.zip_cons_cons,
    List.filter_cons]
  simp [hc]

theorem radial_ne_nil (p q : Point) (rest : List Point) (t : ℚ)
    (hc : (p.x - q.y) * (p.x - q.y) + (p.y - q.y) * (p.y - q.y) > t) :
    ((Polyline.mk (p :: q :: rest)).simplify_radial_dist t).points ≠ [] := by
  rw [radial_dist_cons p q rest t hc]
  exact List.cons_ne_nil _ _

set_option maxRecDepth 40000 in
set_option maxHeartbeats 4000000 in
/-- Claim C1 (as observed on the code): on the golden-test fixture with
tolerance 5.0 and highQuality = false, simplify returns the whole original
input (the collapse pass runs over the original input, all of whose
consecutive points are far apart), not the 33-point expected sequence of the
repository test: the Douglas-Peucker result is discarded. -/
theorem fixture_simplify_returns_input :
    polyOriginal.simplify 5 false = some polyOriginal ∧ polyOriginal ≠ polyExpected := by
  constructor
  · have hfar : allFar polyOriginal.points = true := by
      with_unfolding_all decide
    have hpre : (if false = true then polyOriginal
        else polyOriginal.simplify_radial_dist ((5 : ℚ) ^ 2)).points ≠ [] := by
      simp only [Bool.false_eq_true, if_false]
      exact radial_ne_nil _ _ _ _ (by norm_num)
    have hs := simplify_eq_some polyOriginal 5 false (by decide) hpre
    rw [hs, collapse_of_allFar _ hfar]
  · intro h
    have hl := congrArg (fun P : Polyline => P.points.length) h
    simp [polyOriginal, polyExpected] at hl
